import Mathlib

/-!
Shallow embedding of the Chase–Lev work-stealing deque from
`include/wsq.h` (compile-time power-of-two capacity `WorkStealingQueue<T, Capacity>`)
and `include/WorkStealingQueue.h` (runtime capacity `WorkStealingQueue<T>`).

Both headers implement the same operations over two signed 64-bit counters
`top_` and `bottom_` and a ring buffer `buffer_` addressed by `idx & mask`
(`kMask = Capacity - 1` resp. `mask_ = capacity_ - 1`).  The operation bodies
of `try_emplace`, `pop` and `steal` are line-for-line identical between the
two headers at the value level, so one parameterised embedding (capacity `C`
passed explicitly) covers both; the compile-time variant corresponds to `C`
a power of two (its `static_assert`s), the runtime variant to arbitrary `C`.

The payload type is embedded at the value level for trivially-destructible,
copyable payloads (the fast path both headers optimise for; the runtime
variant's `pop` statically requires trivial destructibility), so move-outs
and omitted destructor calls do not alter slot contents.

Counters are embedded as `Int` (C++ `long long`).  The C++ comparisons
`write_idx - top >= Capacity` and array subscripts `idx & mask` convert the
`long long` operand to `size_t` (value modulo 2^64); `toU64` makes that
conversion explicit.

The CAS on `top_` in `pop` and `steal` is embedded with an explicit boolean
`casOk` giving the outcome of `compare_exchange_strong`: in any execution
where no concurrent thread modifies `top_` between the load and the CAS
(in particular in the sequential projections used for owner-only and
single-thief runs) the CAS succeeds, so those runs use `casOk = true`;
`casOk = false` is the lost-race outcome, in which
`compare_exchange_strong` writes nothing to shared state.
-/

namespace WSQSpec

/-- Deque state: the two shared counters and the ring buffer.  Matches the
data members `top_`, `bottom_` (`std::atomic<long long>`, both start at 0)
and `buffer_` of both headers; a slot holds `none` while no constructed
value has been stored in it. -/
structure WSQ (α : Type) where
  top : Int
  bottom : Int
  buffer : Nat → Option α

/-- Initial state: `top_{0}` and `bottom_{0}` member initialisers; the
constructor allocates uninitialised storage for the slots. -/
def WSQ.init {α : Type} : WSQ α :=
  { top := 0, bottom := 0, buffer := fun _ => none }

/-- C++ conversion of a `long long` value to `size_t` (value modulo 2^64),
as performed by `write_idx - top >= Capacity` and `idx & kMask`. -/
def toU64 (i : Int) : Nat :=
  (i % (2 ^ 64 : Int)).toNat

/-- Ring-buffer slot map `idx & kMask` (wsq.h line 99 etc.), with
`kMask = Capacity - 1` (wsq.h line 175) resp. `mask_ = capacity - 1`
(WorkStealingQueue.h line 43); the `long long` index is first converted
to `size_t`. -/
def slotIdx (C : Nat) (i : Int) : Nat :=
  toU64 i &&& (C - 1)

/-- Owner push, `try_emplace` (wsq.h lines 88-102, WorkStealingQueue.h
lines 86-104): load `write_idx := bottom_`, load `top := top_`; if
`write_idx - top >= Capacity` (comparison performed in `size_t`) return
`false`; otherwise construct the argument into `buffer_[write_idx & kMask]`,
store `bottom_ := write_idx + 1`, return `true`. -/
def try_emplace {α : Type} (C : Nat) (x : α) (q : WSQ α) : Bool × WSQ α :=
  if C ≤ toU64 (q.bottom - q.top) then
    (false, q)
  else
    (true,
      { q with
        buffer := fun s => if s = slotIdx C q.bottom then some x else q.buffer s,
        bottom := q.bottom + 1 })

/-- Owner pop (wsq.h lines 104-140, WorkStealingQueue.h lines 106-135):
`pop_idx := bottom_ - 1`; store `bottom_ := pop_idx`; load `top := top_`;
if `pop_idx < top` restore `bottom_ := pop_idx + 1` and return `nullopt`;
if `pop_idx == top` race on `CAS(top_: top → top + 1)` (`casOk` is the CAS
outcome), restoring `bottom_ := pop_idx + 1` in both branches and returning
the slot value exactly when the CAS succeeds; otherwise (at least two items)
return the value at `buffer_[pop_idx & kMask]` leaving `bottom_ = pop_idx`. -/
def pop {α : Type} (C : Nat) (casOk : Bool) (q : WSQ α) : Option α × WSQ α :=
  if q.bottom - 1 < q.top then
    (none, { q with bottom := q.bottom - 1 + 1 })
  else if q.bottom - 1 = q.top then
    if casOk then
      (q.buffer (slotIdx C (q.bottom - 1)),
        { q with top := q.top + 1, bottom := q.bottom - 1 + 1 })
    else
      (none, { q with bottom := q.bottom - 1 + 1 })
  else
    (q.buffer (slotIdx C (q.bottom - 1)), { q with bottom := q.bottom - 1 })

/-- Thief steal (wsq.h lines 142-169, WorkStealingQueue.h lines 137-162):
load `steal_idx := top_`, load `bottom := bottom_`; if `steal_idx >= bottom`
return `nullopt`; otherwise read `out := buffer_[steal_idx & kMask]` into a
local before the CAS, then attempt `CAS(top_: steal_idx → steal_idx + 1)`
(`casOk` is the outcome): on success return `out`, on failure discard `out`
and return `nullopt` having written nothing. -/
def steal {α : Type} (C : Nat) (casOk : Bool) (q : WSQ α) : Option α × WSQ α :=
  if q.bottom ≤ q.top then
    (none, q)
  else if casOk then
    (q.buffer (slotIdx C q.top), { q with top := q.top + 1 })
  else
    (none, q)

/-- States reachable from the initial state by any sequence of deque
operations (with either CAS outcome wherever a CAS occurs).  Owner-only
reachability is the sub-relation that never uses the `steal` rule. -/
inductive Reach {α : Type} (C : Nat) : WSQ α → Prop
  | init : Reach C WSQ.init
  | push (x : α) {q : WSQ α} : Reach C q → Reach C (try_emplace C x q).2
  | pop (casOk : Bool) {q : WSQ α} : Reach C q → Reach C (pop C casOk q).2
  | steal (casOk : Bool) {q : WSQ α} : Reach C q → Reach C (steal C casOk q).2

/-- Owner-side operations (the thread allowed to call `try_emplace` and
`pop`; spec §3 "Exclusive writer"). -/
inductive OwnerOp (α : Type) where
  | push (x : α)
  | pop
deriving DecidableEq

/-- Observable result of one operation: the `bool` returned by
`try_emplace`, or the `optional` returned by `pop`. -/
inductive Obs (α : Type) where
  | pushed (ok : Bool)
  | popped (v : Option α)
deriving DecidableEq

/-- Run a sequence of owner operations on the deque, collecting the
observable results.  Owner-only runs have no concurrent writer of `top_`,
so every CAS the owner attempts succeeds (`casOk = true`). -/
def runQ {α : Type} (C : Nat) : List (OwnerOp α) → WSQ α → List (Obs α) × WSQ α
  | [], q => ([], q)
  | OwnerOp.push x :: ops, q =>
      (Obs.pushed (try_emplace C x q).1 :: (runQ C ops (try_emplace C x q).2).1,
        (runQ C ops (try_emplace C x q).2).2)
  | OwnerOp.pop :: ops, q =>
      (Obs.popped (pop C true q).1 :: (runQ C ops (pop C true q).2).1,
        (runQ C ops (pop C true q).2).2)

/-- Modelled from the spec (§3 capacity invariant, §4.2, §8 property 4
"Owner LIFO (solo)"): the ideal bounded LIFO the owner-only deque should
behave as.  A push succeeds exactly when fewer than `C` items are live and
appends at the bottom end. -/
def stackPush {α : Type} (C : Nat) (x : α) (l : List α) : Bool × List α :=
  if l.length < C then (true, l ++ [x]) else (false, l)

/-- Modelled from the spec (§8 property 4): pop returns the most recently
pushed live item, `none` on empty. -/
def stackPop {α : Type} (l : List α) : Option α × List α :=
  (l.getLast?, l.dropLast)

/-- Run a sequence of owner operations on the ideal bounded LIFO. -/
def runStack {α : Type} (C : Nat) : List (OwnerOp α) → List α → List (Obs α) × List α
  | [], l => ([], l)
  | OwnerOp.push x :: ops, l =>
      (Obs.pushed (stackPush C x l).1 :: (runStack C ops (stackPush C x l).2).1,
        (runStack C ops (stackPush C x l).2).2)
  | OwnerOp.pop :: ops, l =>
      (Obs.popped (stackPop l).1 :: (runStack C ops (stackPop l).2).1,
        (runStack C ops (stackPop l).2).2)

/-- Full operation alphabet including thief steals; each CAS-bearing
operation carries its CAS outcome. -/
inductive Op (α : Type) where
  | push (x : α)
  | pop (casOk : Bool)
  | steal (casOk : Bool)

/-- State transition of one operation. -/
def stepOp {α : Type} (C : Nat) : Op α → WSQ α → WSQ α
  | Op.push x, q => (try_emplace C x q).2
  | Op.pop casOk, q => (pop C casOk q).2
  | Op.steal casOk, q => (steal C casOk q).2

/-- The `top_` indices taken by the successful steals of a run, in call
order: a steal that returns a value has committed `CAS(top_: t → t + 1)`
on the `t` it loaded, and the stolen item is the one pushed at counter
index `t`. -/
def stealTops {α : Type} (C : Nat) : List (Op α) → WSQ α → List Int
  | [], _ => []
  | Op.push x :: ops, q => stealTops C ops (stepOp C (Op.push x) q)
  | Op.pop casOk :: ops, q => stealTops C ops (stepOp C (Op.pop casOk) q)
  | Op.steal casOk :: ops, q =>
      if ((steal C casOk q).1).isSome then
        q.top :: stealTops C ops (stepOp C (Op.steal casOk) q)
      else
        stealTops C ops (stepOp C (Op.steal casOk) q)

/-- Runtime-capacity variant `WorkStealingQueue<T>` (WorkStealingQueue.h):
its constructor (lines 41-52) takes `size_t capacity` with **no**
power-of-two or non-zero validation (the compile-time variant's
`static_assert`s at wsq.h lines 39-41 are absent) and stores
`capacity_ = capacity`, `mask_ = capacity - 1`. -/
structure RTQueue (α : Type) where
  capacity_ : Nat
  mask_ : Nat
  state : WSQ α

/-- Runtime-capacity constructor, accepting any capacity value. -/
def RTQueue.make {α : Type} (capacity : Nat) : RTQueue α :=
  { capacity_ := capacity, mask_ := capacity - 1, state := WSQ.init }

/-- C++ `std::memory_order` values. -/
inductive MemOrder where
  | relaxed
  | acquire
  | release
  | acq_rel
  | seq_cst
deriving DecidableEq

/-- Ordering of the `bottom_` store that publishes the decrement in `pop`:
`bottom_.store(pop_idx, std::memory_order_release)` (wsq.h line 111,
WorkStealingQueue.h line 113). -/
def pop_bottomStoreOrder : MemOrder := MemOrder.release

/-- Ordering of the subsequent `top_` load in `pop`:
`top_.load(std::memory_order_acquire)` (wsq.h line 113,
WorkStealingQueue.h line 114). -/
def pop_topLoadOrder : MemOrder := MemOrder.acquire

/-- Whether any fence (`std::atomic_thread_fence`) stands between the
`bottom_` store and the `top_` load in `pop`: there is none in either
header; the only thing between them in wsq.h is the comment
"possibly need a fence here." (line 112). -/
def pop_fenceBetween : Bool := false

/-- Counter invariant maintained at operation boundaries (spec §3 size and
capacity invariants, §8 property 2): live count `bottom - top` stays within
`[0, C]`. -/
def Inv {α : Type} (C : Nat) (q : WSQ α) : Prop :=
  0 ≤ q.bottom - q.top ∧ q.bottom - q.top ≤ (C : Int)

/-- Slot liveness (spec §3 slot lifecycle): every live index `top ≤ i < bottom`
addresses a slot holding a constructed value. -/
def LiveInv {α : Type} (C : Nat) (q : WSQ α) : Prop :=
  ∀ i : Int, q.top ≤ i → i < q.bottom → (q.buffer (slotIdx C i)).isSome = true

/-- Simulation relation between a deque state and the ideal bounded LIFO
(spec §3): the live window `top ≤ i < bottom` holds exactly the stack's
elements in push order, bottom end last. -/
def Rel {α : Type} (C : Nat) (q : WSQ α) (l : List α) : Prop :=
  q.top ≤ q.bottom
  ∧ q.bottom - q.top = (l.length : Int)
  ∧ l.length ≤ C
  ∧ ∀ k : Nat, k < l.length → q.buffer (slotIdx C (q.top + (k : Int))) = l[k]?

theorem toU64_def (i : Int) : toU64 i = (i % ((2 : Int) ^ 64)).toNat := by
  norm_num [toU64]

theorem toU64_nonneg_lt {i : Int} (h0 : 0 ≤ i) (h1 : i < 2 ^ 64) :
    (toU64 i : Int) = i := by
  rw [toU64_def, Int.emod_eq_of_lt h0 h1, Int.toNat_of_nonneg h0]

theorem slotIdx_lt {C : Nat} (hC : 0 < C) (i : Int) : slotIdx C i < C := by
  have h : slotIdx C i ≤ C - 1 := Nat.and_le_right
  omega

theorem toNat_emod_cast (a : Int) (ha : 0 ≤ a) (n : Nat) :
    a.toNat % n = (a % (n : Int)).toNat := by
  rcases Nat.eq_zero_or_pos n with hn | hn
  · subst hn; simp
  · have h1 : ((a.toNat % n : Nat) : Int) = a % (n : Int) := by
      push_cast
      rw [Int.toNat_of_nonneg ha]
    omega

theorem slotIdx_two_pow {p : Nat} (hp : p ≤ 64) (i : Int) :
    slotIdx (2 ^ p) i = (i % ((2 : Int) ^ p)).toNat := by
  unfold slotIdx
  rw [toU64_def, Nat.and_pow_two_sub_one_eq_mod]
  have h64 : ((2 : Int) ^ 64) ≠ 0 := by positivity
  have hnn : 0 ≤ i % (2 : Int) ^ 64 := Int.emod_nonneg i h64
  have hdvd : ((2 : Int) ^ p) ∣ ((2 : Int) ^ 64) := pow_dvd_pow 2 hp
  have hcast : ((2 ^ p : Nat) : Int) = (2 : Int) ^ p := by push_cast; ring
  rw [toNat_emod_cast _ hnn, hcast, Int.emod_emod_of_dvd i hdvd]

theorem slotIdx_ne_of_window {p : Nat} (hp : p ≤ 64) {i j : Int}
    (hij : i < j) (hw : j - i < (2 : Int) ^ p) :
    slotIdx (2 ^ p) i ≠ slotIdx (2 ^ p) j := by
  rw [slotIdx_two_pow hp, slotIdx_two_pow hp]
  intro h
  have hCne : ((2 : Int) ^ p) ≠ 0 := by positivity
  have hnn₁ : 0 ≤ i % (2 : Int) ^ p := Int.emod_nonneg i hCne
  have hnn₂ : 0 ≤ j % (2 : Int) ^ p := Int.emod_nonneg j hCne
  have h1 : i % (2 : Int) ^ p = j % (2 : Int) ^ p := by
    rw [← Int.toNat_of_nonneg hnn₁, ← Int.toNat_of_nonneg hnn₂, h]
  have h2 : (j - i) % (2 : Int) ^ p = 0 := by
    rw [Int.sub_emod, h1, sub_self, Int.zero_emod]
  have h3 : (j - i) % (2 : Int) ^ p = j - i := Int.emod_eq_of_lt (by omega) hw
  omega

theorem inv_push {α : Type} {C : Nat} (hC64 : (C : Int) < 2 ^ 64) {q : WSQ α}
    (h : Inv C q) (x : α) : Inv C (try_emplace C x q).2 := by
  obtain ⟨h0, h1⟩ := h
  unfold try_emplace
  split
  · exact ⟨h0, h1⟩
  · next hfull =>
    have heq : (toU64 (q.bottom - q.top) : Int) = q.bottom - q.top :=
      toU64_nonneg_lt h0 (by omega)
    constructor <;> dsimp <;> omega

theorem inv_pop {α : Type} {C : Nat} (casOk : Bool) {q : WSQ α}
    (h : Inv C q) : Inv C (pop C casOk q).2 := by
  obtain ⟨h0, h1⟩ := h
  unfold pop
  split
  · next hlt => constructor <;> dsimp <;> omega
  · next hge =>
    split
    · next heq =>
      cases casOk
      · constructor <;> dsimp <;> omega
      · constructor <;> dsimp <;> omega
    · next hne => constructor <;> dsimp <;> omega

theorem inv_steal {α : Type} {C : Nat} (casOk : Bool) {q : WSQ α}
    (h : Inv C q) : Inv C (steal C casOk q).2 := by
  obtain ⟨h0, h1⟩ := h
  unfold steal
  split
  · exact ⟨h0, h1⟩
  · next hne =>
    split
    · constructor <;> dsimp <;> omega
    · exact ⟨h0, h1⟩

theorem inv_reach {α : Type} {C : Nat} (hC64 : (C : Int) < 2 ^ 64) {q : WSQ α}
    (h : Reach C q) : Inv C q := by
  induction h with
  | init => exact ⟨by simp [WSQ.init], by simp [WSQ.init]⟩
  | push x _ ih => exact inv_push hC64 ih x
  | pop casOk _ ih => exact inv_pop casOk ih
  | steal casOk _ ih => exact inv_steal casOk ih

theorem live_push {α : Type} {C : Nat} {q : WSQ α} (h : LiveInv C q) (x : α) :
    LiveInv C (try_emplace C x q).2 := by
  unfold try_emplace
  split
  · exact h
  · intro i h1 h2
    dsimp at h1 h2 ⊢
    by_cases hs : slotIdx C i = slotIdx C q.bottom
    · simp [hs]
    · have hib : i ≠ q.bottom := fun he => hs (by rw [he])
      simp only [if_neg hs]
      exact h i h1 (by omega)

theorem live_pop {α : Type} {C : Nat} (casOk : Bool) {q : WSQ α} (h : LiveInv C q) :
    LiveInv C (pop C casOk q).2 := by
  unfold pop
  split
  · intro i h1 h2
    dsimp at h1 h2 ⊢
    exact h i h1 (by omega)
  · split
    · cases casOk
      · intro i h1 h2
        dsimp at h1 h2 ⊢
        exact h i h1 (by omega)
      · intro i h1 h2
        dsimp at h1 h2 ⊢
        exact h i (by omega) (by omega)
    · intro i h1 h2
      dsimp at h1 h2 ⊢
      exact h i h1 (by omega)

theorem live_steal {α : Type} {C : Nat} (casOk : Bool) {q : WSQ α} (h : LiveInv C q) :
    LiveInv C (steal C casOk q).2 := by
  unfold steal
  split
  · exact h
  · split
    · intro i h1 h2
      dsimp at h1 h2 ⊢
      exact h i (by omega) h2
    · exact h

theorem live_reach {α : Type} {C : Nat} {q : WSQ α} (h : Reach C q) : LiveInv C q := by
  induction h with
  | init => intro i h1 h2; simp [WSQ.init] at h1 h2; omega
  | push x _ ih => exact live_push ih x
  | pop casOk _ ih => exact live_pop casOk ih
  | steal casOk _ ih => exact live_steal casOk ih

/-- C5: on any empty deque state (`top ≥ bottom`), `pop` and `steal` return
`none` and leave `top`, `bottom` and every slot exactly as they were before
the call (`pop` restores `bottom` after its transient decrement), whichever
way the CAS would resolve; hence repeated `pop`/`steal` on an empty deque
keep returning `none` without corrupting the counters. -/
theorem empty_pop_steal_none {α : Type} (C : Nat) (q : WSQ α)
    (hq : q.bottom ≤ q.top) (casOk : Bool) :
    pop C casOk q = (none, q) ∧ steal C casOk q = (none, q) := by
  obtain ⟨t, b, f⟩ := q
  simp only [WSQ.bottom, WSQ.top] at hq
  constructor
  · unfold pop
    rw [if_pos (show b - 1 < t by omega)]
    have hb : b - 1 + 1 = b := by omega
    rw [hb]
  · unfold steal
    rw [if_pos hq]

/-- Witness for C5 at the concrete empty deque `C = 4`, `top = bottom = 0`. -/
theorem empty_pop_steal_none_w :
    pop 4 true (WSQ.init : WSQ Nat) = (none, WSQ.init)
    ∧ steal 4 true (WSQ.init : WSQ Nat) = (none, WSQ.init) :=
  empty_pop_steal_none 4 WSQ.init (by simp [WSQ.init]) true

/-- C1: on every reachable deque state, `try_emplace` returns `false` exactly
when `bottom - top ≥ C` (wsq.h uses the full threshold `C`, not the
reserved-slot `C - 1`); on `true` it has stored the argument in slot
`bottom AND (C - 1)` and incremented `bottom` by exactly one, leaving `top`
alone; on `false` it has left the entire state unchanged. -/
theorem try_emplace_spec {α : Type} (p C : Nat) (hp : p ≤ 63) (hC : C = 2 ^ p)
    (q : WSQ α) (hq : Reach C q) (x : α) :
    ((try_emplace C x q).1 = false ↔ (C : Int) ≤ q.bottom - q.top)
    ∧ ((try_emplace C x q).1 = true →
        (try_emplace C x q).2.buffer (slotIdx C q.bottom) = some x
        ∧ (try_emplace C x q).2.bottom = q.bottom + 1
        ∧ (try_emplace C x q).2.top = q.top)
    ∧ ((try_emplace C x q).1 = false → (try_emplace C x q).2 = q) := by
  have hC64 : (C : Int) < 2 ^ 64 := by
    have h : (2 : Nat) ^ p < 2 ^ 64 := Nat.pow_lt_pow_right (by norm_num) (by omega)
    subst hC
    exact_mod_cast h
  obtain ⟨h0, h1⟩ := inv_reach hC64 hq
  have heq : (toU64 (q.bottom - q.top) : Int) = q.bottom - q.top :=
    toU64_nonneg_lt h0 (by omega)
  by_cases hg : C ≤ toU64 (q.bottom - q.top)
  · refine ⟨⟨fun _ => by omega, fun _ => by simp [try_emplace, hg]⟩, ?_, ?_⟩
    · intro ht
      simp [try_emplace, hg] at ht
    · intro _
      simp [try_emplace, hg]
  · refine ⟨⟨fun hf => ?_, fun hge => by omega⟩, fun _ => ?_, fun hf => ?_⟩
    · simp [try_emplace, hg] at hf
    · refine ⟨?_, ?_, ?_⟩ <;> simp [try_emplace, hg]
    · simp [try_emplace, hg] at hf

/-- Witness for C1 at `C = 4`, the initial (reachable, non-full) state. -/
theorem try_emplace_spec_w :
    ((try_emplace 4 (7 : Nat) WSQ.init).1 = false ↔ (4 : Int) ≤ (0 : Int) - 0)
    ∧ (try_emplace 4 (7 : Nat) WSQ.init).2.buffer (slotIdx 4 0) = some 7
    ∧ (try_emplace 4 (7 : Nat) WSQ.init).2.bottom = 1 := by
  have h := try_emplace_spec 2 4 (by omega) (by norm_num) WSQ.init Reach.init (7 : Nat)
  refine ⟨h.1, ?_, ?_⟩
  · exact (h.2.1 (by decide)).1
  · have hb := (h.2.1 (by decide)).2.1
    simpa [WSQ.init] using hb

/-- C4: from the initial state every operation preserves
`0 ≤ bottom - top ≤ C` at operation boundaries; `top` never decreases under
any operation; `bottom` never decreases under `try_emplace` or `steal`, and
under `pop` it either keeps its pre-call value or (when `pop` takes an item
in the two-or-more branch) ends exactly one lower, the transient decrement
being reverted before return whenever `pop` returns `none`. -/
theorem counters_spec {α : Type} (C : Nat) (hC64 : (C : Int) < 2 ^ 64) :
    (∀ q : WSQ α, Reach C q → 0 ≤ q.bottom - q.top ∧ q.bottom - q.top ≤ (C : Int))
    ∧ (∀ (q : WSQ α) (x : α),
        (try_emplace C x q).2.top = q.top ∧ q.bottom ≤ (try_emplace C x q).2.bottom)
    ∧ (∀ (q : WSQ α) (casOk : Bool),
        q.top ≤ (pop C casOk q).2.top
        ∧ ((pop C casOk q).2.bottom = q.bottom
            ∨ (pop C casOk q).2.bottom = q.bottom - 1)
        ∧ (Reach C q → (pop C casOk q).1 = none → (pop C casOk q).2.bottom = q.bottom))
    ∧ (∀ (q : WSQ α) (casOk : Bool),
        q.top ≤ (steal C casOk q).2.top ∧ (steal C casOk q).2.bottom = q.bottom) := by
  refine ⟨fun q hq => inv_reach hC64 hq, fun q x => ?_, fun q casOk => ?_, fun q casOk => ?_⟩
  · unfold try_emplace
    split
    · exact ⟨rfl, le_refl _⟩
    · exact ⟨rfl, by dsimp; omega⟩
  · unfold pop
    split
    · next hlt =>
      refine ⟨by dsimp; try omega, Or.inl (by dsimp; try omega), fun _ _ => by dsimp; try omega⟩
    · next hge =>
      split
      · next heq =>
        cases casOk
        · exact ⟨by dsimp; try omega, Or.inl (by dsimp; try omega),
            fun _ _ => by dsimp; try omega⟩
        · exact ⟨by dsimp; try omega, Or.inl (by dsimp; try omega),
            fun _ _ => by dsimp; try omega⟩
      · next hne =>
        refine ⟨by dsimp; try omega, Or.inr (by dsimp; try omega), fun hr hnone => ?_⟩
        exfalso
        have hlive := live_reach hr (q.bottom - 1) (by omega) (by omega)
        rw [Option.isSome_iff_exists] at hlive
        obtain ⟨v, hv⟩ := hlive
        simp only [hv] at hnone
        exact Option.noConfusion hnone
  · unfold steal
    split
    · exact ⟨le_refl _, rfl⟩
    · split
      · exact ⟨by dsimp; omega, rfl⟩
      · exact ⟨le_refl _, rfl⟩

/-- Witness for C4 at `C = 4` on the initial state and its one-push successor. -/
theorem counters_spec_w :
    (0 ≤ (WSQ.init : WSQ Nat).bottom - (WSQ.init : WSQ Nat).top
      ∧ (WSQ.init : WSQ Nat).bottom - (WSQ.init : WSQ Nat).top ≤ (4 : Int))
    ∧ ((pop 4 true (WSQ.init : WSQ Nat)).1 = none →
        (pop 4 true (WSQ.init : WSQ Nat)).2.bottom = (WSQ.init : WSQ Nat).bottom) := by
  have h := counters_spec (α := Nat) 4 (by norm_num)
  exact ⟨h.1 WSQ.init Reach.init, (h.2.2.1 WSQ.init true).2.2 Reach.init⟩

/-- C6 counterexample: on the reachable two-item state (two pushes into a
`C = 4` deque) `pop` succeeds returning the second value, yet `bottom` after
the call is `1`, not its pre-call value `2` — a successful `pop` in the
two-or-more branch leaves `bottom` decremented, so `bottom` is not
net-unchanged on every successful `pop`. -/
theorem pop_bottom_not_preserved :
    (pop 4 true (try_emplace 4 2 (try_emplace 4 (1 : Nat) WSQ.init).2).2).1 = some 2
    ∧ (pop 4 true (try_emplace 4 2 (try_emplace 4 (1 : Nat) WSQ.init).2).2).2.bottom
      ≠ (try_emplace 4 2 (try_emplace 4 (1 : Nat) WSQ.init).2).2.bottom := by
  constructor
  · decide
  · decide

/-- C6 (amended): on every successful `pop` the live count `bottom - top`
shrinks by exactly one (one slot consumed); `bottom` is net-unchanged
exactly in the one-item race branch (`bottom - 1 = top`, where `top`
advances instead), while in the two-or-more branch (`top < bottom - 1`)
`bottom` ends exactly one below its pre-call value. -/
theorem pop_success_consumes {α : Type} (C : Nat) (casOk : Bool) (q : WSQ α) (v : α)
    (h : (pop C casOk q).1 = some v) :
    ((pop C casOk q).2.bottom - (pop C casOk q).2.top = q.bottom - q.top - 1)
    ∧ (q.bottom - 1 = q.top → (pop C casOk q).2.bottom = q.bottom)
    ∧ (q.top < q.bottom - 1 → (pop C casOk q).2.bottom = q.bottom - 1) := by
  obtain ⟨t, b, f⟩ := q
  unfold pop at h ⊢
  simp only [WSQ.bottom, WSQ.top] at h ⊢
  by_cases h1 : b - 1 < t
  · rw [if_pos h1] at h
    exact absurd h (by simp)
  · rw [if_neg h1] at h ⊢
    by_cases h2 : b - 1 = t
    · rw [if_pos h2] at h ⊢
      cases casOk
      · simp at h
      · rw [if_pos rfl] at h ⊢
        refine ⟨by dsimp; try omega, fun _ => by dsimp; try omega, fun hlt => by omega⟩
    · rw [if_neg h2] at h ⊢
      refine ⟨by dsimp; try omega, fun heq => by omega, fun _ => by dsimp; try omega⟩

/-- Witness for C6 (amended) on the reachable two-item state. -/
theorem pop_success_consumes_w :
    ((pop 4 true (try_emplace 4 2 (try_emplace 4 (1 : Nat) WSQ.init).2).2).2.bottom
        - (pop 4 true (try_emplace 4 2 (try_emplace 4 (1 : Nat) WSQ.init).2).2).2.top
      = (try_emplace 4 2 (try_emplace 4 (1 : Nat) WSQ.init).2).2.bottom
        - (try_emplace 4 2 (try_emplace 4 (1 : Nat) WSQ.init).2).2.top - 1) :=
  (pop_success_consumes 4 true _ 2 (by decide)).1

/-- C7: when the deque is non-empty, `steal` reads the item out of
`slot(top)` by copy into a local before the CAS — the value a winning steal
returns is exactly the pre-CAS content of `buffer[top AND (C - 1)]` — and a
steal whose CAS fails discards that local and returns `none` with `top`,
`bottom` and the contents of every slot, including the slot that was read,
unchanged. -/
theorem steal_read_before_cas {α : Type} (C : Nat) (q : WSQ α) (h : q.top < q.bottom) :
    steal C false q = (none, q)
    ∧ (steal C true q).1 = q.buffer (slotIdx C q.top) := by
  unfold steal
  have hn : ¬ (q.bottom ≤ q.top) := by omega
  rw [if_neg hn, if_neg hn]
  constructor
  · simp
  · rw [if_pos rfl]

/-- Witness for C7 on a one-item deque at `C = 4`. -/
theorem steal_read_before_cas_w :
    steal 4 false (try_emplace 4 (9 : Nat) WSQ.init).2
      = (none, (try_emplace 4 (9 : Nat) WSQ.init).2)
    ∧ (steal 4 true (try_emplace 4 (9 : Nat) WSQ.init).2).1
      = (try_emplace 4 (9 : Nat) WSQ.init).2.buffer (slotIdx 4 (try_emplace 4 (9 : Nat) WSQ.init).2.top) :=
  steal_read_before_cas 4 _ (by decide)

/-- C8: the orderings the source actually uses in `pop` between the
`bottom_` decrement store and the `top_` load: there is no fence between
them, the store is `release` (not `seq_cst`) and the load is `acquire`
(not `seq_cst`) — so neither of the two forms the claim asserts
(an explicit seq_cst fence, or seq_cst on both accesses) is present in
the code. -/
theorem pop_fence_absent :
    pop_fenceBetween = false
    ∧ pop_bottomStoreOrder ≠ MemOrder.seq_cst
    ∧ pop_topLoadOrder ≠ MemOrder.seq_cst := by
  refine ⟨rfl, ?_, ?_⟩ <;> decide

/-- C10: the slot map used by every buffer access of `try_emplace`, `pop`
and `steal` lands in `[0, C)` for every signed 64-bit (indeed every) counter
value whenever `C ≥ 1`, and no operation writes any buffer index outside
the image of that map: `pop` and `steal` never write the buffer at all, and
`try_emplace` changes no index other than `slotIdx C bottom < C`. -/
theorem buffer_access_in_bounds {α : Type} (C : Nat) (hC : 0 < C) :
    (∀ i : Int, slotIdx C i < C)
    ∧ (∀ (q : WSQ α) (x : α) (j : Nat), C ≤ j →
        (try_emplace C x q).2.buffer j = q.buffer j)
    ∧ (∀ (q : WSQ α) (casOk : Bool) (j : Nat),
        (pop C casOk q).2.buffer j = q.buffer j
        ∧ (steal C casOk q).2.buffer j = q.buffer j) := by
  refine ⟨slotIdx_lt hC, fun q x j hj => ?_, fun q casOk j => ⟨?_, ?_⟩⟩
  · unfold try_emplace
    split
    · rfl
    · dsimp
      rw [if_neg (by have := slotIdx_lt hC q.bottom; omega)]
  · unfold pop
    split
    · rfl
    · split
      · cases casOk <;> rfl
      · rfl
  · unfold steal
    split
    · rfl
    · split <;> rfl

/-- Witness for C10 at `C = 4` with a negative counter value. -/
theorem buffer_access_in_bounds_w : slotIdx 4 (-5) < 4 :=
  (buffer_access_in_bounds (α := Nat) 4 (by norm_num)).1 (-5)

theorem top_mono_push {α : Type} (C : Nat) (x : α) (q : WSQ α) :
    q.top ≤ (try_emplace C x q).2.top := by
  unfold try_emplace
  split
  · exact le_refl _
  · exact le_refl _

theorem top_mono_pop {α : Type} (C : Nat) (casOk : Bool) (q : WSQ α) :
    q.top ≤ (pop C casOk q).2.top := by
  unfold pop
  split
  · exact le_refl _
  · split
    · cases casOk
      · exact le_refl _
      · show q.top ≤ q.top + 1
        omega
    · exact le_refl _

theorem top_mono_steal {α : Type} (C : Nat) (casOk : Bool) (q : WSQ α) :
    q.top ≤ (steal C casOk q).2.top := by
  unfold steal
  split
  · exact le_refl _
  · split
    · show q.top ≤ q.top + 1
      omega
    · exact le_refl _

theorem top_mono_step {α : Type} (C : Nat) (o : Op α) (q : WSQ α) :
    q.top ≤ (stepOp C o q).top := by
  cases o with
  | push x => exact top_mono_push C x q
  | pop casOk => exact top_mono_pop C casOk q
  | steal casOk => exact top_mono_steal C casOk q

theorem steal_isSome_top {α : Type} {C : Nat} (casOk : Bool) (q : WSQ α)
    (h : ((steal C casOk q).1).isSome = true) :
    (steal C casOk q).2.top = q.top + 1 := by
  unfold steal at h ⊢
  split at h
  · simp at h
  · split at h
    · next hok =>
      rw [if_neg (by assumption), if_pos hok]
    · simp at h

theorem stealTops_bound {α : Type} (C : Nat) :
    ∀ (ops : List (Op α)) (q : WSQ α),
      (∀ t ∈ stealTops C ops q, q.top ≤ t)
      ∧ List.Chain' (· < ·) (stealTops C ops q) := by
  intro ops
  induction ops with
  | nil => intro q; simp [stealTops]
  | cons o ops ih =>
    intro q
    cases o with
    | push x =>
      refine ⟨fun t ht => ?_, (ih _).2⟩
      exact le_trans (top_mono_step C (Op.push x) q) ((ih _).1 t ht)
    | pop casOk =>
      refine ⟨fun t ht => ?_, (ih _).2⟩
      exact le_trans (top_mono_step C (Op.pop casOk) q) ((ih _).1 t ht)
    | steal casOk =>
      by_cases hs : ((steal C casOk q).1).isSome = true
      · have htop : (stepOp C (Op.steal casOk) q).top = q.top + 1 :=
          steal_isSome_top casOk q hs
        have hrest := ih (stepOp C (Op.steal casOk) q)
        constructor
        · intro t ht
          simp only [stealTops, hs, if_pos] at ht
          rcases List.mem_cons.mp ht with h1 | h1
          · omega
          · have := hrest.1 t h1
            omega
        · simp only [stealTops, hs, if_pos]
          rw [List.chain'_cons']
          refine ⟨fun y hy => ?_, hrest.2⟩
          have hmem : y ∈ stealTops C ops (stepOp C (Op.steal casOk) q) :=
            List.mem_of_mem_head? hy
          have := hrest.1 y hmem
          omega
      · have hs' : ((steal C casOk q).1).isSome = false := by
          cases hfs : ((steal C casOk q).1).isSome
          · rfl
          · exact absurd hfs hs
        refine ⟨fun t ht => ?_, ?_⟩
        · simp only [stealTops, hs'] at ht
          simp only [Bool.false_eq_true, if_false] at ht
          exact le_trans (top_mono_step C (Op.steal casOk) q) ((ih _).1 t ht)
        · simp only [stealTops, hs', Bool.false_eq_true, if_false]
          exact (ih _).2

/-- C3: a successful `steal` (its CAS on `top` committed) returns the item
stored at slot `top AND (C - 1)` — the oldest live index — and advances
`top` by exactly one, leaving `bottom` untouched; consequently, over any
sequence of operations the `top` indices taken by successful steals, which
are the push indices of the stolen items, form a strictly increasing list:
successive successful steals return values in ascending push-index order. -/
theorem steal_order_spec {α : Type} (C : Nat) :
    (∀ (casOk : Bool) (q : WSQ α) (v : α), (steal C casOk q).1 = some v →
        (steal C casOk q).2.top = q.top + 1
        ∧ q.buffer (slotIdx C q.top) = some v
        ∧ (steal C casOk q).2.bottom = q.bottom)
    ∧ (∀ (ops : List (Op α)) (q : WSQ α),
        List.Chain' (· < ·) (stealTops C ops q)) := by
  constructor
  · intro casOk q v h
    have hsome : ((steal C casOk q).1).isSome = true := by rw [h]; rfl
    refine ⟨steal_isSome_top casOk q hsome, ?_, ?_⟩
    · unfold steal at h
      split at h
      · simp at h
      · split at h
        · next hok => exact h
        · simp at h
    · unfold steal at h ⊢
      split at h
      · simp at h
      · split at h
        · next hok =>
          rw [if_neg (by assumption), if_pos hok]
        · simp at h
  · exact fun ops q => (stealTops_bound C ops q).2

/-- Witness for C3 on a one-item deque at `C = 4`. -/
theorem steal_order_spec_w :
    ((steal 4 true (try_emplace 4 (5 : Nat) WSQ.init).2).2.top
      = (try_emplace 4 (5 : Nat) WSQ.init).2.top + 1)
    ∧ (try_emplace 4 (5 : Nat) WSQ.init).2.buffer
        (slotIdx 4 (try_emplace 4 (5 : Nat) WSQ.init).2.top) = some 5 := by
  have h := (steal_order_spec (α := Nat) 4).1 true
    (try_emplace 4 (5 : Nat) WSQ.init).2 5 (by decide)
  exact ⟨h.1, h.2.1⟩

theorem pow_63_cast {p : Nat} (hp : p ≤ 63) : ((2 ^ p : Nat) : Int) < 2 ^ 64 := by
  have h : (2 : Nat) ^ p < 2 ^ 64 := Nat.pow_lt_pow_right (by norm_num) (by omega)
  exact_mod_cast h

theorem rel_push {α : Type} {p C : Nat} (hp : p ≤ 63) (hC : C = 2 ^ p)
    {q : WSQ α} {l : List α} (h : Rel C q l) (x : α) :
    (try_emplace C x q).1 = (stackPush C x l).1
    ∧ Rel C (try_emplace C x q).2 (stackPush C x l).2 := by
  obtain ⟨h1, h2, h3, h4⟩ := h
  have hC64 : (C : Int) < 2 ^ 64 := by rw [hC]; exact pow_63_cast hp
  have h0 : 0 ≤ q.bottom - q.top := by omega
  have heq : (toU64 (q.bottom - q.top) : Int) = q.bottom - q.top :=
    toU64_nonneg_lt h0 (by omega)
  by_cases hfull : l.length < C
  · have hg : ¬ (C ≤ toU64 (q.bottom - q.top)) := by omega
    unfold try_emplace stackPush
    rw [if_neg hg, if_pos hfull]
    refine ⟨rfl, by dsimp; omega, ?_, ?_, ?_⟩
    · dsimp
      simp only [List.length_append, List.length_cons, List.length_nil]
      push_cast
      omega
    · dsimp
      simp only [List.length_append, List.length_cons, List.length_nil]
      omega
    · intro k hk
      dsimp
      have hx : (l ++ [x]).length = l.length + 1 := by simp
      rw [hx] at hk
      by_cases hkl : k < l.length
      · have hkl' : (k : Int) < (l.length : Int) := by exact_mod_cast hkl
        have hfull' : (l.length : Int) < ((2 : Int) ^ p) := by
          have hq : (l.length : Int) < ((2 ^ p : Nat) : Int) := by
            exact_mod_cast (hC ▸ hfull)
          have hq2 : ((2 ^ p : Nat) : Int) = (2 : Int) ^ p := by push_cast; ring
          omega
        have hne : slotIdx C (q.top + (k : Int)) ≠ slotIdx C q.bottom := by
          rw [hC]
          exact slotIdx_ne_of_window (by omega) (by omega) (by omega)
        rw [if_neg hne, h4 k hkl, List.getElem?_append_left hkl]
      · have hk1 : k = l.length := by omega
        subst hk1
        have hs : q.top + (l.length : Int) = q.bottom := by omega
        rw [hs, if_pos rfl, List.getElem?_concat_length]
  · have hg : C ≤ toU64 (q.bottom - q.top) := by omega
    unfold try_emplace stackPush
    rw [if_pos hg, if_neg hfull]
    exact ⟨rfl, h1, h2, h3, h4⟩

theorem rel_pop {α : Type} {p C : Nat} (hp : p ≤ 63) (hC : C = 2 ^ p)
    {q : WSQ α} {l : List α} (h : Rel C q l) :
    (pop C true q).1 = (stackPop l).1
    ∧ Rel C (pop C true q).2 (stackPop l).2 := by
  obtain ⟨h1, h2, h3, h4⟩ := h
  rcases Nat.eq_zero_or_pos l.length with hlen | hlen
  · have hl : l = [] := List.length_eq_zero.mp hlen
    subst hl
    simp only [List.length_nil, Nat.cast_zero] at h2
    unfold pop stackPop
    rw [if_pos (by omega)]
    refine ⟨rfl, by dsimp; omega, by simp; omega, by simp, ?_⟩
    intro k hk
    simp at hk
  · have hnlt : ¬ (q.bottom - 1 < q.top) := by omega
    by_cases hone : l.length = 1
    · have hbt : q.bottom - 1 = q.top := by omega
      unfold pop stackPop
      rw [if_neg hnlt, if_pos hbt, if_pos rfl]
      constructor
      · have hidx : q.bottom - 1 = q.top + ((0 : Nat) : Int) := by push_cast; omega
        rw [hidx, h4 0 (by omega), List.getLast?_eq_getElem?]
        have h10 : l.length - 1 = 0 := by omega
        rw [h10]
      · refine ⟨by dsimp; omega, ?_, ?_, ?_⟩
        · dsimp
          rw [List.length_dropLast, hone]
          push_cast
          omega
        · rw [List.length_dropLast]
          omega
        · intro k hk
          rw [List.length_dropLast, hone] at hk
          omega
    · have hneq : ¬ (q.bottom - 1 = q.top) := by omega
      unfold pop stackPop
      rw [if_neg hnlt, if_neg hneq]
      constructor
      · have hidx : q.bottom - 1 = q.top + ((l.length - 1 : Nat) : Int) := by omega
        rw [hidx, h4 (l.length - 1) (by omega), List.getLast?_eq_getElem?]
      · refine ⟨by dsimp; omega, ?_, ?_, ?_⟩
        · dsimp
          rw [List.length_dropLast]
          omega
        · rw [List.length_dropLast]
          omega
        · intro k hk
          rw [List.length_dropLast] at hk
          dsimp
          rw [h4 k (by omega)]
          rw [List.getElem?_eq_getElem (by omega : k < l.length),
            List.getElem?_eq_getElem (by rw [List.length_dropLast]; omega)]
          rw [List.getElem_dropLast]

theorem runQ_sim {α : Type} {p C : Nat} (hp : p ≤ 63) (hC : C = 2 ^ p) :
    ∀ (ops : List (OwnerOp α)) (q : WSQ α) (l : List α), Rel C q l →
      (runQ C ops q).1 = (runStack C ops l).1
      ∧ Rel C (runQ C ops q).2 (runStack C ops l).2 := by
  intro ops
  induction ops with
  | nil => exact fun q l h => ⟨rfl, h⟩
  | cons o ops ih =>
    intro q l h
    cases o with
    | push x =>
      obtain ⟨e1, hrel⟩ := rel_push hp hC h x
      obtain ⟨e2, hrel2⟩ := ih _ _ hrel
      exact ⟨by simp only [runQ, runStack]; rw [e1, e2], hrel2⟩
    | pop =>
      obtain ⟨e1, hrel⟩ := rel_pop hp hC h
      obtain ⟨e2, hrel2⟩ := ih _ _ hrel
      exact ⟨by simp only [runQ, runStack]; rw [e1, e2], hrel2⟩

/-- C2: under owner-only operation (any finite sequence of pushes and pops,
no steal) the deque produces exactly the observable trace of the ideal
bounded LIFO: every `pop` returns the most recently pushed live value —
reverse push order — and `pop` on an empty deque returns `none`. -/
theorem owner_lifo {α : Type} (p C : Nat) (hp : p ≤ 63) (hC : C = 2 ^ p)
    (ops : List (OwnerOp α)) :
    (runQ C ops WSQ.init).1 = (runStack C ops ([] : List α)).1 := by
  refine (runQ_sim hp hC ops WSQ.init [] ?_).1
  refine ⟨by simp [WSQ.init], by simp [WSQ.init], by simp, ?_⟩
  intro k hk
  simp at hk

/-- Witness for C2 at `C = 4` on a push-push-pop-pop-pop sequence. -/
theorem owner_lifo_w :
    (runQ 4 [OwnerOp.push 10, OwnerOp.push 20, OwnerOp.pop, OwnerOp.pop, OwnerOp.pop]
        (WSQ.init : WSQ Nat)).1
      = (runStack 4 [OwnerOp.push 10, OwnerOp.push 20, OwnerOp.pop, OwnerOp.pop, OwnerOp.pop]
          ([] : List Nat)).1 :=
  owner_lifo 2 4 (by omega) (by norm_num) _

theorem and_mask_all (n : Nat) (hn : 0 < n)
    (hall : ∀ i, i < n → i &&& (n - 1) = i) : ∃ k, n = 2 ^ k := by
  rcases Nat.eq_zero_or_pos (n - 1) with hm0 | hm0
  · exact ⟨0, by omega⟩
  · have hmne : n - 1 ≠ 0 := by omega
    have hub : n - 1 < 2 ^ ((n - 1).log2 + 1) := Nat.lt_log2_self
    have hlb : 2 ^ (n - 1).log2 ≤ n - 1 := Nat.log2_self_le hmne
    refine ⟨(n - 1).log2 + 1, ?_⟩
    have hbit : ∀ j, j < (n - 1).log2 + 1 → (n - 1).testBit j = true := by
      intro j hj
      have h2j : 2 ^ j ≤ n - 1 :=
        le_trans (Nat.pow_le_pow_right (by norm_num) (by omega)) hlb
      have hcall := hall (2 ^ j) (by omega)
      rw [Nat.two_pow_and] at hcall
      cases htb : (n - 1).testBit j with
      | false =>
        rw [htb] at hcall
        simp only [Bool.toNat_false, Nat.mul_zero] at hcall
        have := Nat.two_pow_pos j
        omega
      | true => rfl
    have hm2 : n - 1 = 2 ^ ((n - 1).log2 + 1) - 1 := by
      apply Nat.eq_of_testBit_eq
      intro j
      rw [Nat.testBit_two_pow_sub_one]
      by_cases hj : j < (n - 1).log2 + 1
      · simp [hbit j hj, hj]
      · have hf : (n - 1).testBit j = false :=
          Nat.testBit_lt_two_pow
            (lt_of_lt_of_le hub (Nat.pow_le_pow_right (by norm_num) (by omega)))
        simp [hf, hj]
    have hpos : 0 < 2 ^ ((n - 1).log2 + 1) := Nat.two_pow_pos _
    omega

theorem exists_and_ne (n : Nat) (hn : 0 < n) (hnp : ¬ ∃ k : Nat, n = 2 ^ k) :
    ∃ i, i < n ∧ i &&& (n - 1) ≠ i := by
  by_contra hcon
  push_neg at hcon
  exact hnp (and_mask_all n hn hcon)

theorem runQ_append {α : Type} (C : Nat) (ops1 ops2 : List (OwnerOp α)) (q : WSQ α) :
    runQ C (ops1 ++ ops2) q
      = ((runQ C ops1 q).1 ++ (runQ C ops2 (runQ C ops1 q).2).1,
          (runQ C ops2 (runQ C ops1 q).2).2) := by
  induction ops1 generalizing q with
  | nil => simp [runQ]
  | cons o ops ih =>
    cases o with
    | push x => simp [runQ, ih]
    | pop => simp [runQ, ih]

theorem runStack_append {α : Type} (C : Nat) (ops1 ops2 : List (OwnerOp α)) (l : List α) :
    runStack C (ops1 ++ ops2) l
      = ((runStack C ops1 l).1 ++ (runStack C ops2 (runStack C ops1 l).2).1,
          (runStack C ops2 (runStack C ops1 l).2).2) := by
  induction ops1 generalizing l with
  | nil => simp [runStack]
  | cons o ops ih =>
    cases o with
    | push x => simp [runStack, ih]
    | pop => simp [runStack, ih]

theorem slotIdx_natCast (n k : Nat) (hk : k < 2 ^ 64) :
    slotIdx n (k : Int) = k &&& (n - 1) := by
  unfold slotIdx
  have h1 : (toU64 (k : Int) : Int) = (k : Int) :=
    toU64_nonneg_lt (Int.natCast_nonneg k) (by exact_mod_cast hk)
  have h2 : toU64 (k : Int) = k := by exact_mod_cast h1
  rw [h2]

theorem runQ_pushRange (n : Nat) (hn64 : n < 2 ^ 64) :
    ∀ k, k ≤ n → ∃ B : Nat → Option Nat,
      runQ n ((List.range k).map OwnerOp.push) (WSQ.init : WSQ Nat)
        = (List.replicate k (Obs.pushed true), ⟨0, (k : Int), B⟩)
      ∧ (0 < k → B (slotIdx n ((k : Int) - 1)) = some (k - 1)) := by
  intro k
  induction k with
  | zero =>
    intro _
    refine ⟨fun _ => none, ?_, by omega⟩
    norm_num [runQ, WSQ.init]
  | succ k ih =>
    intro hk
    obtain ⟨B, hrun, _⟩ := ih (by omega)
    rw [List.range_succ, List.map_append, runQ_append, hrun]
    have hkk : ((k : Int)) < 2 ^ 64 := by
      have : (k : Int) < (2 ^ 64 : Nat) := by exact_mod_cast lt_of_le_of_lt (by omega : k ≤ n) hn64
      omega
    have hguard : ¬ (n ≤ toU64 ((⟨0, (k : Int), B⟩ : WSQ Nat).bottom
        - (⟨0, (k : Int), B⟩ : WSQ Nat).top)) := by
      dsimp
      rw [sub_zero]
      have h1 : (toU64 (k : Int) : Int) = (k : Int) :=
        toU64_nonneg_lt (Int.natCast_nonneg k) hkk
      omega
    have hte : try_emplace n k (⟨0, (k : Int), B⟩ : WSQ Nat)
        = (true, ⟨0, (k : Int) + 1,
            fun s => if s = slotIdx n (k : Int) then some k else B s⟩) := by
      unfold try_emplace
      rw [if_neg hguard]
    refine ⟨fun s => if s = slotIdx n (k : Int) then some k else B s, ?_, ?_⟩
    · simp only [runQ, hte]
      simp only [Prod.mk.injEq, WSQ.mk.injEq]
      refine ⟨by rw [← List.replicate_succ'], trivial, by push_cast; ring, trivial⟩
    · intro _
      have h1 : ((k + 1 : Nat) : Int) - 1 = (k : Int) := by push_cast; ring
      rw [h1]
      simp

theorem runQ_popsElse (n : Nat) :
    ∀ (r : Nat) (b : Int) (B : Nat → Option Nat), (r : Int) ≤ b - 1 →
      runQ n (List.replicate r OwnerOp.pop) (⟨0, b, B⟩ : WSQ Nat)
        = ((List.range r).map (fun (s : Nat) => Obs.popped (B (slotIdx n (b - 1 - (s : Int))))),
            ⟨0, b - (r : Int), B⟩) := by
  intro r
  induction r with
  | zero =>
    intro b B _
    simp [runQ]
  | succ r ih =>
    intro b B hr
    have hr1 : ((r + 1 : Nat) : Int) = (r : Int) + 1 := by push_cast; ring
    rw [List.replicate_succ]
    simp only [runQ]
    have hpop : pop n true (⟨0, b, B⟩ : WSQ Nat)
        = (B (slotIdx n (b - 1)), ⟨0, b - 1, B⟩) := by
      unfold pop
      rw [if_neg (by dsimp; rw [hr1] at hr; omega), if_neg (by dsimp; rw [hr1] at hr; omega)]
    rw [hpop, ih (b - 1) B (by rw [hr1] at hr; omega)]
    simp only [Prod.mk.injEq]
    refine ⟨?_, ?_⟩
    · rw [List.range_succ_eq_map, List.map_cons, List.map_map]
      simp only [Nat.cast_zero, sub_zero]
      congr 1
      apply List.map_congr_left
      intro a _
      simp only [Function.comp]
      congr 3
      push_cast
      ring
    · congr 1
      rw [hr1]
      ring

theorem pop_last (n : Nat) (j : Nat) (B : Nat → Option Nat) :
    (pop n true (⟨0, (j : Int) + 1, B⟩ : WSQ Nat)).1 = B (slotIdx n (j : Int)) := by
  unfold pop
  rcases Nat.eq_zero_or_pos j with hj | hj
  · subst hj
    rw [if_neg (by dsimp; omega), if_pos (by dsimp)]
    rw [if_pos rfl]
    dsimp only
    norm_num
  · rw [if_neg (by dsimp; omega), if_neg (by dsimp; omega)]
    dsimp
    congr 2
    push_cast
    ring

theorem runStack_pushRange (n : Nat) :
    ∀ k, k ≤ n →
      runStack n ((List.range k).map OwnerOp.push) ([] : List Nat)
        = (List.replicate k (Obs.pushed true), List.range k) := by
  intro k
  induction k with
  | zero => intro _; rfl
  | succ k ih =>
    intro hk
    rw [List.range_succ, List.map_append, runStack_append, ih (by omega)]
    have hpush : stackPush n k (List.range k) = (true, List.range k ++ [k]) := by
      unfold stackPush
      rw [if_pos (by rw [List.length_range]; omega)]
    simp only [runStack, hpush]
    rw [← List.replicate_succ', ← List.range_succ]

theorem runStack_popsRange (n : Nat) :
    ∀ (r m : Nat), r ≤ m →
      runStack n (List.replicate r OwnerOp.pop) (List.range m)
        = ((List.range r).map (fun (s : Nat) => Obs.popped (some (m - 1 - s))),
            List.range (m - r)) := by
  intro r
  induction r with
  | zero => intro m _; simp [runStack]
  | succ r ih =>
    intro m hr
    rw [List.replicate_succ]
    simp only [runStack]
    have hpop : stackPop (List.range m) = (some (m - 1), List.range (m - 1)) := by
      unfold stackPop
      have hm : List.range m = List.range (m - 1) ++ [m - 1] := by
        conv_lhs => rw [show m = (m - 1) + 1 by omega]
        rw [List.range_succ]
      rw [hm, List.getLast?_concat, List.dropLast_concat]
    rw [hpop, ih (m - 1) (by omega)]
    simp only [Prod.mk.injEq]
    refine ⟨?_, ?_⟩
    · rw [List.range_succ_eq_map, List.map_cons, List.map_map]
      simp only [Nat.sub_zero]
      congr 1
      apply List.map_congr_left
      intro a _
      simp only [Function.comp]
      congr 2
      omega
    · congr 1
      omega

/-- C9: the runtime-capacity header's constructor accepts any capacity
(including zero and non-powers of two) with no validation, storing
`mask_ = capacity - 1`; the slot map `i AND (capacity - 1)` agrees with
`i mod capacity` for every index only when the capacity is a power of two,
and for every positive non-power-of-two capacity there is an owner-only
push/pop sequence within capacity (every push succeeds) whose observable
round-trip trace differs from the ideal bounded LIFO — the trace that, by
the owner-LIFO refinement, any power-of-two capacity produces. -/
theorem runtime_capacity_nonpow2 (n : Nat) (hn : 0 < n) (hn64 : n < 2 ^ 64)
    (hnp : ¬ ∃ k : Nat, n = 2 ^ k) :
    ((RTQueue.make n : RTQueue Nat).capacity_ = n
      ∧ (RTQueue.make n : RTQueue Nat).mask_ = n - 1)
    ∧ (¬ ∀ i : Nat, i &&& (n - 1) = i % n)
    ∧ ∃ ops : List (OwnerOp Nat),
        Obs.pushed false ∉ (runQ n ops WSQ.init).1
        ∧ (runQ n ops WSQ.init).1 ≠ (runStack n ops []).1 := by
  obtain ⟨i, hin, hine⟩ := exists_and_ne n hn hnp
  have hji : (i &&& (n - 1)) ≤ i := Nat.and_le_left
  have hjlt : (i &&& (n - 1)) < i := lt_of_le_of_ne hji hine
  set j := i &&& (n - 1) with hj
  have hjj : j &&& (n - 1) = j := by rw [hj, Nat.and_assoc, Nat.and_self]
  refine ⟨⟨rfl, rfl⟩, ?_, ?_⟩
  · intro hall
    exact hine (by rw [hj, hall i, Nat.mod_eq_of_lt hin])
  · refine ⟨(List.range (i + 1)).map OwnerOp.push
      ++ (List.replicate (i - j) OwnerOp.pop ++ [OwnerOp.pop]), ?_, ?_⟩
    all_goals {
      obtain ⟨B, hrunp, hslot⟩ := runQ_pushRange n hn64 (i + 1) (by omega)
      have hBj : B j = some i := by
        have h1 : ((i + 1 : Nat) : Int) - 1 = ((i : Nat) : Int) := by push_cast; ring
        have h2 := hslot (by omega)
        rw [h1, slotIdx_natCast n i (by omega)] at h2
        rw [← hj] at h2
        simpa using h2
      have hpops := runQ_popsElse n (i - j) ((i + 1 : Nat) : Int) B
        (by push_cast; omega)
      have hbot : ((i + 1 : Nat) : Int) - ((i - j : Nat) : Int) = ((j : Nat) : Int) + 1 := by
        push_cast
        omega
      have hlastq : (pop n true (⟨0, ((j : Nat) : Int) + 1, B⟩ : WSQ Nat)).1 = some i := by
        rw [pop_last n j B, slotIdx_natCast n j (by omega), hjj, hBj]
      have htraceq : (runQ n ((List.range (i + 1)).map OwnerOp.push
            ++ (List.replicate (i - j) OwnerOp.pop ++ [OwnerOp.pop])) WSQ.init).1
          = List.replicate (i + 1) (Obs.pushed true)
            ++ (((List.range (i - j)).map
                  (fun (s : Nat) => Obs.popped (B (slotIdx n (((i + 1 : Nat) : Int)
                    - 1 - (s : Int))))))
              ++ [Obs.popped (some i)]) := by
        rw [runQ_append, hrunp, runQ_append, hpops]
        congr 2
        · rw [hbot]
          simp only [runQ]
          rw [hlastq]
      have hspush := runStack_pushRange n (i + 1) (by omega)
      have hspops := runStack_popsRange n (i - j) (i + 1) (by omega)
      have hm1 : i + 1 - (i - j) = j + 1 := by omega
      have htraces : (runStack n ((List.range (i + 1)).map OwnerOp.push
            ++ (List.replicate (i - j) OwnerOp.pop ++ [OwnerOp.pop])) ([] : List Nat)).1
          = List.replicate (i + 1) (Obs.pushed true)
            ++ (((List.range (i - j)).map
                  (fun (s : Nat) => Obs.popped (some (i + 1 - 1 - s))))
              ++ [Obs.popped (some j)]) := by
        rw [runStack_append, hspush, runStack_append, hspops]
        congr 2
        · rw [hm1]
          simp only [runStack]
          have hsp : stackPop (List.range (j + 1)) = (some j, List.range j) := by
            unfold stackPop
            rw [List.range_succ, List.getLast?_concat, List.dropLast_concat]
          rw [hsp]
      first
      | -- membership conjunct
        (rw [htraceq]
         intro hmem
         rcases List.mem_append.mp hmem with hmem1 | hmem2
         · exact absurd (List.eq_of_mem_replicate hmem1) (by simp)
         · rcases List.mem_append.mp hmem2 with hmem3 | hmem4
           · obtain ⟨s, -, hs⟩ := List.mem_map.mp hmem3
             exact Obs.noConfusion hs
           · rw [List.mem_singleton] at hmem4
             exact Obs.noConfusion hmem4)
      | -- inequality conjunct
        (rw [htraceq, htraces]
         intro hcon
         have hlast := congrArg List.getLast? hcon
         rw [← List.append_assoc, ← List.append_assoc] at hlast
         rw [List.getLast?_concat, List.getLast?_concat] at hlast
         have : i = j := by
           have h1 : Obs.popped (some i) = Obs.popped (some j) := by
             exact Option.some.inj hlast
           have h2 := congrArg (fun o => match o with
             | Obs.popped (some v) => v
             | _ => 0) h1
           simpa using h2
         omega)
    }

/-- Witness for C9 at the concrete non-power-of-two capacity `n = 3`. -/
theorem runtime_capacity_nonpow2_w : ¬ ∀ i : Nat, i &&& (3 - 1) = i % 3 :=
  (runtime_capacity_nonpow2 3 (by norm_num) (by norm_num)
    (by
      rintro ⟨k, hk⟩
      rcases k with _ | _ | k
      · simp at hk
      · simp at hk
      · have h4 : 2 ^ 2 ≤ 2 ^ (k + 2) := Nat.pow_le_pow_right (by norm_num) (by omega)
        omega)).2.1

end WSQSpec
